import Mathlib

/-!
Verification of the dts-generator bundling engine (src/index.ts).

The program text is modelled shallowly: JavaScript strings become `List Char`
(`Text`), the TypeScript AST becomes an explicit tree with full-start and end
positions, and the external `path` library (an out-of-scope collaborator per
the spec) is modelled with POSIX semantics.  Every definition is translated
from the source file; definitions that follow the spec's words instead are
named and documented as such.
-/

/-- JavaScript strings, modelled as lists of characters. -/
abbrev Text := List Char

/-- JavaScript `String.prototype.slice(a, b)` for nonnegative indices:
characters in the half-open range `[a, b)`, clamped to the string. -/
def jsSlice (t : Text) (a b : Nat) : Text := (t.drop a).take (b - a)

/-- JavaScript `String.prototype.slice(a, -k)`: from index `a` up to `k`
characters before the end. -/
def jsSliceNeg (t : Text) (a k : Nat) : Text := (t.drop a).take (t.length - k - a)

/-- JavaScript `String.prototype.slice(-k)`: the final `k` characters. -/
def jsSliceLast (t : Text) (k : Nat) : Text := t.drop (t.length - k)

/-- The check `filename.slice(-5) === '.d.ts'` used throughout `generate`. -/
def endsWithDts (filename : Text) : Bool := decide (jsSliceLast filename 5 = (".d.ts").data)

/-- Split a text at every occurrence of one character (used to model both
POSIX path segmentation and line splitting of error messages). -/
def splitOnChar (c : Char) : Text → List Text
  | [] => [[]]
  | x :: xs =>
    if x = c then [] :: splitOnChar c xs
    else
      match splitOnChar c xs with
      | [] => [[x]]
      | l :: ls => (x :: l) :: ls

/-- Modelled from Node's POSIX path semantics (external collaborator):
segment normalization for an absolute path, where `.` and empty segments
vanish and `..` pops (or vanishes at the root). The accumulator holds the
kept segments in reverse. -/
def resolveSegs : List Text → List Text → List Text
  | acc, [] => acc.reverse
  | acc, s :: rest =>
    if s = [] ∨ s = ['.'] then resolveSegs acc rest
    else if s = ['.', '.'] then
      match acc with
      | [] => resolveSegs [] rest
      | _ :: acc2 => resolveSegs acc2 rest
    else resolveSegs (s :: acc) rest

/-- Modelled from Node's POSIX path semantics (external collaborator):
segment normalization for a possibly relative path, where leading `..`
segments are kept. -/
def normalizeSegs : List Text → List Text → List Text
  | acc, [] => acc.reverse
  | acc, s :: rest =>
    if s = [] ∨ s = ['.'] then normalizeSegs acc rest
    else if s = ['.', '.'] then
      match acc with
      | [] => normalizeSegs [['.', '.']] rest
      | t :: acc2 =>
        if t = ['.', '.'] then normalizeSegs (['.', '.'] :: ['.', '.'] :: acc2) rest
        else normalizeSegs acc2 rest
    else normalizeSegs (s :: acc) rest

/-- Modelled from Node's POSIX `path.resolve(cwd, p)` (external collaborator):
an absolute `p` is normalized on its own, otherwise `p` is appended to the
absolute working directory, and the result is segment-normalized. -/
def pathResolve (cwd p : Text) : Text :=
  let full := if p.head? = some '/' then p else cwd ++ ('/' :: p)
  '/' :: List.intercalate ['/'] (resolveSegs [] (splitOnChar '/' full))

/-- Modelled from Node's POSIX `path.normalize` (external collaborator),
restricted to paths without trailing separators. -/
def pathNormalize (p : Text) : Text :=
  if p = [] then ['.']
  else if p.head? = some '/' then
    '/' :: List.intercalate ['/'] (resolveSegs [] (splitOnChar '/' p))
  else
    let core := List.intercalate ['/'] (normalizeSegs [] (splitOnChar '/' p))
    if core = [] then ['.'] else core

/-- Index of the last `/` in a text, if any. -/
def lastSlashIdx (p : Text) : Option Nat :=
  (p.reverse.findIdx? (fun c => c = '/')).map (fun i => p.length - 1 - i)

/-- Modelled from Node's POSIX `path.dirname` (external collaborator),
restricted to paths without trailing separators. -/
def pathDirname (p : Text) : Text :=
  match lastSlashIdx p with
  | none => ['.']
  | some 0 => ['/']
  | some i => p.take i

/-- Modelled from Node's POSIX `path.join(a, b)` (external collaborator):
concatenate with a separator and normalize. -/
def pathJoin (a b : Text) : Text :=
  let joined := if a = [] then b else if b = [] then a else a ++ ('/' :: b)
  if joined = [] then ['.'] else pathNormalize joined

/-- `filenameToMid` from src/index.ts, parametrized by the host path
separator `pathUtil.sep`: the identity on `/` hosts, otherwise a global
replacement of the separator by `/`. -/
def filenameToMid (sep : Char) (filename : Text) : Text :=
  if sep = '/' then filename
  else filename.map (fun c => if c = sep then '/' else c)

/-- `getFilenames` from src/index.ts: each input path is resolved (against
the process working directory); the result is kept when the base directory
is a string prefix of it, and otherwise the path is resolved against the
base directory. -/
def getFilenames (cwd baseDir : Text) (files : List Text) : List Text :=
  files.map fun filename =>
    let resolvedFilename := pathResolve cwd filename
    if baseDir.isPrefixOf resolvedFilename then resolvedFilename
    else pathResolve baseDir filename

/-- The subset of `ts.SyntaxKind` values the program inspects, plus an
opaque constructor for every other kind. -/
inductive SyntaxKind where
  | externalModuleReference : SyntaxKind
  | declareKeyword : SyntaxKind
  | stringLiteral : SyntaxKind
  | exportDeclaration : SyntaxKind
  | importDeclaration : SyntaxKind
  | other : Nat → SyntaxKind
deriving DecidableEq

mutual
/-- A TypeScript AST node as the program uses it: its kind, its parent's
kind, the text payload of its (literal) expression, its full start `pos`
(which includes leading trivia), its `end`, and its children in document
order (what `ts.forEachChild` enumerates). -/
inductive Node where
  | mk : SyntaxKind → SyntaxKind → Text → Nat → Nat → NodeList → Node
/-- Children of a node, in document order. -/
inductive NodeList where
  | nil : NodeList
  | cons : Node → NodeList → NodeList
end

def Node.kind : Node → SyntaxKind
  | .mk k _ _ _ _ _ => k

def Node.parentKind : Node → SyntaxKind
  | .mk _ pk _ _ _ _ => pk

def Node.text : Node → Text
  | .mk _ _ t _ _ _ => t

def Node.pos : Node → Nat
  | .mk _ _ _ p _ _ => p

def Node.endPos : Node → Nat
  | .mk _ _ _ _ e _ => e

def Node.children : Node → NodeList
  | .mk _ _ _ _ _ cs => cs

mutual
/-- The `visit` closure of `processTree` in src/index.ts, with the mutable
`code`/`cursorPosition` pair made explicit: `readThrough` the node's full
start, then either append the replacement and `skip` past the node, or
recurse into the children. -/
def visit (text : Text) (r : Node → Option Text) : Node → Text × Nat → Text × Nat
  | Node.mk k pk tx p e cs, (code, cursor) =>
    let code2 := code ++ jsSlice text cursor p
    match r (Node.mk k pk tx p e cs) with
    | some replacement => (code2 ++ replacement, e)
    | none => visitList text r cs (code2, p)
/-- `ts.forEachChild(node, visit)`: visit the children left to right. -/
def visitList (text : Text) (r : Node → Option Text) : NodeList → Text × Nat → Text × Nat
  | NodeList.nil, st => st
  | NodeList.cons n l, st => visitList text r l (visit text r n st)
end

/-- `processTree` from src/index.ts: run `visit` from an empty buffer and
cursor 0, then flush the remaining tail of the source text. -/
def processTree (sourceText : Text) (sourceTree : Node) (replacer : Node → Option Text) : Text :=
  let st := visit sourceText replacer sourceTree ([], 0)
  st.1 ++ jsSlice sourceText st.2 sourceText.length

/-- One piece of the decomposition of a `processTree` run: either a span of
the source passed through verbatim, or a node span replaced by a string. -/
inductive Seg where
  | src : Nat → Nat → Seg
  | rep : Nat → Nat → Text → Seg

def segStart : Seg → Nat
  | .src a _ => a
  | .rep a _ _ => a

def segEnd : Seg → Nat
  | .src _ b => b
  | .rep _ b _ => b

def renderSeg (text : Text) : Seg → Text
  | .src a b => jsSlice text a b
  | .rep _ _ s => s

def renderSegs (text : Text) (l : List Seg) : Text := (l.map (renderSeg text)).flatten

mutual
/-- The decomposition computed by a `visit` run starting at a given cursor:
the list of passed-through and substituted spans, and the final cursor. -/
def segsOf (r : Node → Option Text) : Node → Nat → List Seg × Nat
  | Node.mk k pk tx p e cs, cursor =>
    match r (Node.mk k pk tx p e cs) with
    | some replacement => ([Seg.src cursor p, Seg.rep p e replacement], e)
    | none =>
      let st := segsList r cs p
      (Seg.src cursor p :: st.1, st.2)
/-- Decomposition of a children sweep. -/
def segsList (r : Node → Option Text) : NodeList → Nat → List Seg × Nat
  | NodeList.nil, cursor => ([], cursor)
  | NodeList.cons n l, cursor =>
    let st := segsOf r n cursor
    let st2 := segsList r l st.2
    (st.1 ++ st2.1, st2.2)
end

/-- The decomposition of a whole `processTree` run, including the final
flush of the source tail. -/
def processSegs (r : Node → Option Text) (root : Node) (len : Nat) : List Seg :=
  let st := segsOf r root 0
  st.1 ++ [Seg.src st.2 len]

/-- The segments form a gapless chain from `c` to `d`: each segment starts
where the previous one ended. -/
def segsChain : Nat → List Seg → Nat → Bool
  | c, [], d => decide (c = d)
  | c, s :: l, d => decide (segStart s = c) && segsChain (segEnd s) l d

/-- Every segment covers a forward (non-negative-length) span. -/
def segsOrdered : List Seg → Bool
  | [] => true
  | s :: l => decide (segStart s ≤ segEnd s) && segsOrdered l

/-- Every segment passes source text through (no substitution fired). -/
def segsAllSrc : List Seg → Bool
  | [] => true
  | .src _ _ :: l => segsAllSrc l
  | .rep _ _ _ :: _ => false

mutual
/-- Well-formed position structure, as the TypeScript parser guarantees it:
a node's span lies inside `[lo, hi]`, and its children partition forward
inside it. -/
def wfNode : Nat → Nat → Node → Bool
  | lo, hi, Node.mk _ _ _ p e cs => decide (lo ≤ p) && decide (e ≤ hi) && wfList p e cs
/-- Children spans are ordered and nested inside `[lo, hi]`. -/
def wfList : Nat → Nat → NodeList → Bool
  | lo, hi, NodeList.nil => decide (lo ≤ hi)
  | lo, hi, NodeList.cons n l => wfNode lo hi n && wfList n.endPos hi l
end

/-- The global regex replace `content.replace(nonEmptyLineStart, match ++ indent)`
from src/index.ts, where `nonEmptyLineStart` is the pattern eol followed by a
negative lookahead for eol-or-end, scanned left to right.  The first argument
counts characters still to copy blindly because they belong to an already
emitted match. -/
def nelsGo (eol indent : Text) : Nat → Text → Text
  | _ + 1, [] => []
  | skip + 1, _ :: rest => nelsGo eol indent skip rest
  | 0, [] => []
  | 0, c :: rest =>
    if eol ≠ [] ∧ eol.isPrefixOf (c :: rest)
        ∧ ¬((c :: rest).drop eol.length = [] ∨ eol.isPrefixOf ((c :: rest).drop eol.length)) then
      eol ++ indent ++ nelsGo eol indent (eol.length - 1) rest
    else
      c :: nelsGo eol indent 0 rest

/-- The indentation step of `writeDeclaration`: insert the indent string
after every line break that the regex `nonEmptyLineStart` matches. -/
def replaceNonEmptyLineStart (eol indent text : Text) : Text :=
  nelsGo eol indent 0 text

/-- Leftmost-first split of a text at every occurrence of `eol`; the first
argument again counts characters still inside a consumed occurrence. -/
def splitGo (eol : Text) : Nat → Text → List Text
  | _ + 1, [] => [[]]
  | skip + 1, _ :: rest => splitGo eol skip rest
  | 0, [] => [[]]
  | 0, c :: rest =>
    if eol ≠ [] ∧ eol.isPrefixOf (c :: rest) then
      [] :: splitGo eol (eol.length - 1) rest
    else
      match splitGo eol 0 rest with
      | [] => [[c]]
      | l :: ls => (c :: l) :: ls

/-- The lines of a text, split at every line break. -/
def splitEol (eol text : Text) : List Text := splitGo eol 0 text

/-- Follows the spec's words (indentation invariant): keep the first line
as it is, and prefix every later non-empty line with the indent string;
a break followed by another break or by the end of the text yields an
empty line, which receives no indentation. -/
def specIndentLines (eol indent text : Text) : Text :=
  match splitEol eol text with
  | [] => []
  | l :: ls => l ++ (ls.map (fun m => eol ++ if m = [] then m else indent ++ m)).flatten

/-- The line break string has no nontrivial border: no proper nonempty
suffix of it is also a prefix of it.  Both real line endings satisfy this. -/
def overlapFreeB (eol : Text) : Bool :=
  (List.range eol.length).all fun k =>
    decide (k = 0) || decide (List.take (eol.length - k) eol ≠ List.drop k eol)

/-- A compiler diagnostic as the program reads it: the file name, the
0-based line and character returned by `getLineAndCharacterOfPosition`,
the numeric code, and the message text. -/
structure Diagnostic where
  fileName : Text
  line : Nat
  character : Nat
  code : Nat
  messageText : Text

/-- One decimal digit character. -/
def digitChar (d : Nat) : Char :=
  (['0', '1', '2', '3', '4', '5', '6', '7', '8', '9']).getD d '0'

/-- Decimal digits of `n`, most significant first, with structural fuel. -/
def natDigitsAux : Nat → Nat → Text
  | 0, _ => []
  | fuel + 1, n => if n = 0 then [] else natDigitsAux fuel (n / 10) ++ [digitChar (n % 10)]

/-- Model of JavaScript template-literal stringification of a nonnegative
integer: its decimal representation. -/
def natToText (n : Nat) : Text :=
  if n = 0 then ['0'] else natDigitsAux (n + 1) n

/-- `getError` from src/index.ts (the message of the constructed
`EmitterError`): a fixed header, then one appended piece per diagnostic. -/
def getError (diagnostics : List Diagnostic) : Text :=
  diagnostics.foldl
    (fun message d =>
      message ++ ('\n' :: d.fileName) ++ ("(").data ++ natToText (d.line + 1) ++ (",").data
        ++ natToText (d.character + 1) ++ ("): error TS").data ++ natToText d.code
        ++ (": ").data ++ d.messageText)
    ("Declaration generation failed").data

/-- The per-diagnostic line of the error message, as a standalone value. -/
def diagLine (d : Diagnostic) : Text :=
  d.fileName ++ ("(").data ++ natToText (d.line + 1) ++ (",").data
    ++ natToText (d.character + 1) ++ ("): error TS").data ++ natToText d.code
    ++ (": ").data ++ d.messageText

/-- A `ts.SourceFile` as the program uses it: name, full text, parse tree,
and the external-module indicator. -/
structure SourceFile where
  fileName : Text
  text : Text
  tree : Node
  externalModuleIndicator : Bool

/-- The replacer closure passed to `processTree` by `writeDeclaration`:
relative external-module references and relative import/export string
literals are rewritten against the module id's directory, and module-scope
`declare` keywords are removed. -/
def declReplacer (sourceModuleId : Text) (node : Node) : Option Text :=
  if node.kind = SyntaxKind.externalModuleReference then
    if node.text.head? = some '.' then
      some ((" require(\x27").data ++ pathJoin (pathDirname sourceModuleId) node.text ++ ("\x27)").data)
    else none
  else if node.kind = SyntaxKind.declareKeyword then
    some []
  else if node.kind = SyntaxKind.stringLiteral
      ∧ (node.parentKind = SyntaxKind.exportDeclaration ∨ node.parentKind = SyntaxKind.importDeclaration) then
    if node.text.head? = some '.' then
      some ((" \x27").data ++ pathJoin (pathDirname sourceModuleId) node.text ++ ("\x27").data)
    else none
  else none

/-- The module id computed by `writeDeclaration`:
`options.name + filenameToMid(filename.slice(baseDir.length, -5))`. -/
def sourceModuleId (sep : Char) (name baseDir filename : Text) : Text :=
  name ++ filenameToMid sep (jsSliceNeg filename baseDir.length 5)

/-- The fixed per-run context of `generate`: host separator, namespace
name, resolved base directory, end-of-line string and indent string. -/
structure GenCtx where
  sep : Char
  name : Text
  baseDir : Text
  eol : Text
  indent : Text

/-- `writeDeclaration` from src/index.ts, returning the list of writes it
queues: a wrapped, rewritten and re-indented module block when the file has
an external-module indicator, and the raw file text otherwise. -/
def writeDeclaration (ctx : GenCtx) (declarationFile : SourceFile) : List Text :=
  let mid := sourceModuleId ctx.sep ctx.name ctx.baseDir declarationFile.fileName
  if declarationFile.externalModuleIndicator then
    let content := processTree declarationFile.text declarationFile.tree (declReplacer mid)
    [ ("declare module \x27").data ++ mid ++ ("\x27 \x7b").data ++ ctx.eol ++ ctx.indent,
      replaceNonEmptyLineStart ctx.eol ctx.indent content,
      ctx.eol ++ ("\x7d").data ++ ctx.eol ]
  else
    [declarationFile.text]

/-- What the program emits for one input file (the black-box compiler
frontend): whether emission was skipped, the reported diagnostics, and the
emitted files handed to the `writeFile` callback. -/
structure EmitResult where
  emitSkipped : Bool
  diagnostics : List Diagnostic
  outputs : List SourceFile

/-- The black-box compiler frontend: `program.emit` and the per-file
diagnostic queries `generate` combines into one fatal error. -/
structure Compiler where
  emit : SourceFile → EmitResult
  semanticDiagnostics : SourceFile → List Diagnostic
  syntacticDiagnostics : SourceFile → List Diagnostic
  declarationDiagnostics : SourceFile → List Diagnostic

/-- The `writeFile` callback of `generate`: emitted files that are not
declaration files are dropped, the rest go through `writeDeclaration`. -/
def writeFileOutputs (ctx : GenCtx) (outputs : List SourceFile) : List Text :=
  ((outputs.filter fun o => endsWithDts o.fileName).map (writeDeclaration ctx)).flatten

/-- The body of the `program.getSourceFiles().some(...)` callback for one
source file: skip files outside the base directory or excluded; hand
declaration files straight to `writeDeclaration`; otherwise emit, queue the
emitted declaration writes, and fail when emission was skipped or any
diagnostics were reported. -/
def fileStep (ctx : GenCtx) (comp : Compiler) (excludes : List Text) (f : SourceFile) :
    List Text × Option Text :=
  if ¬ ctx.baseDir.isPrefixOf (pathNormalize f.fileName) then ([], none)
  else if excludes.contains f.fileName then ([], none)
  else if endsWithDts f.fileName then (writeDeclaration ctx f, none)
  else
    let er := comp.emit f
    let ws := writeFileOutputs ctx er.outputs
    if er.emitSkipped || !er.diagnostics.isEmpty then
      (ws, some (getError (er.diagnostics ++ comp.semanticDiagnostics f
        ++ comp.syntacticDiagnostics f ++ comp.declarationDiagnostics f)))
    else (ws, none)

/-- `Array.prototype.some` over the program's source files: process files
in order and stop at the first one that rejects. -/
def filesLoop (ctx : GenCtx) (comp : Compiler) (excludes : List Text) :
    List SourceFile → List Text × Option Text
  | [] => ([], none)
  | f :: rest =>
    let st := fileStep ctx comp excludes f
    match st.2 with
    | some e => (st.1, some e)
    | none =>
      let st2 := filesLoop ctx comp excludes rest
      (st.1 ++ st2.1, st2.2)

/-- The four writes of the trailing main-alias block, queued whenever
`options.main` is set; the main path is interpolated verbatim. -/
def mainAliasWrites (name mainPath eol indent : Text) : List Text :=
  [ ("declare module \x27").data ++ name ++ ("\x27 \x7b").data ++ eol ++ indent,
    ("import main = require(\x27").data ++ mainPath ++ ("\x27);").data ++ eol ++ indent,
    ("export = main;").data ++ eol,
    ("\x7d").data ++ eol ]

/-- The options record of `generate` (fields the bundling logic reads);
absent optional lists are modelled as empty lists. -/
structure GenOptions where
  baseDir : Text
  files : List Text
  excludes : List Text
  externs : List Text
  eol : Option Text
  indent : Option Text
  main : Option Text
  name : Text

/-- `options.eol || os.EOL`: the host convention when unset or empty. -/
def eolOf (opts : GenOptions) (hostEOL : Text) : Text :=
  match opts.eol with
  | some e => if e = [] then hostEOL else e
  | none => hostEOL

/-- `options.indent === undefined ? tab : options.indent`. -/
def indentOf (opts : GenOptions) : Text :=
  match opts.indent with
  | some i => i
  | none => ['\t']

/-- The write sequence of one `generate` run, split into the writes up to
and including the failing file (if any), the rejection message (if any),
and the writes the code still queues after the file loop: the main-alias
block is written unconditionally, even after a rejection. -/
def generateRun (sep : Char) (hostEOL cwd : Text) (comp : Compiler) (opts : GenOptions)
    (sourceFiles : List SourceFile) : List Text × Option Text × List Text :=
  let baseDir := pathResolve cwd opts.baseDir
  let eol := eolOf opts hostEOL
  let indent := indentOf opts
  let ctx : GenCtx := ⟨sep, opts.name, baseDir, eol, indent⟩
  let excludes := opts.excludes.map fun e => pathResolve baseDir e
  let externWrites := opts.externs.map fun p =>
    ("/// <reference path=\"").data ++ p ++ ("\" />").data ++ eol
  let st := filesLoop ctx comp excludes sourceFiles
  let mainWrites :=
    match opts.main with
    | some m => mainAliasWrites opts.name m eol indent
    | none => []
  (externWrites ++ st.1, st.2, mainWrites)

theorem jsSlice_append (t : Text) (a b c : Nat) (hab : a ≤ b) (hbc : b ≤ c) :
    jsSlice t a b ++ jsSlice t b c = jsSlice t a c := by
  unfold jsSlice
  have h1 : t.drop b = (t.drop a).drop (b - a) := by
    rw [List.drop_drop]; congr 1; omega
  have h2 : c - a = (b - a) + (c - b) := by omega
  rw [h1, h2, List.take_add]

theorem renderSegs_append (text : Text) (l₁ l₂ : List Seg) :
    renderSegs text (l₁ ++ l₂) = renderSegs text l₁ ++ renderSegs text l₂ := by
  simp [renderSegs]

theorem segsOrdered_append (l₁ l₂ : List Seg) :
    segsOrdered (l₁ ++ l₂) = (segsOrdered l₁ && segsOrdered l₂) := by
  induction l₁ with
  | nil => simp [segsOrdered]
  | cons s tl ih => simp [segsOrdered, ih, Bool.and_assoc]

theorem segsAllSrc_append (l₁ l₂ : List Seg) (h₁ : segsAllSrc l₁ = true)
    (h₂ : segsAllSrc l₂ = true) : segsAllSrc (l₁ ++ l₂) = true := by
  induction l₁ with
  | nil => simpa using h₂
  | cons s tl ih =>
    cases s with
    | src a b => simp [segsAllSrc] at h₁ ⊢; exact ih h₁
    | rep a b str => simp [segsAllSrc] at h₁

mutual
theorem visit_renders (text : Text) (r : Node → Option Text) (n : Node) (code : Text) (cursor : Nat) :
    visit text r n (code, cursor)
      = (code ++ renderSegs text (segsOf r n cursor).1, (segsOf r n cursor).2) := by
  cases n with
  | mk k pk tx p e cs =>
    cases hr : r (Node.mk k pk tx p e cs) with
    | some s =>
      simp [visit, segsOf, hr, renderSegs, renderSeg]
    | none =>
      rw [visit, segsOf]
      simp only [hr]
      rw [visitList_renders]
      simp [renderSegs, renderSeg]
theorem visitList_renders (text : Text) (r : Node → Option Text) (l : NodeList) (code : Text) (cursor : Nat) :
    visitList text r l (code, cursor)
      = (code ++ renderSegs text (segsList r l cursor).1, (segsList r l cursor).2) := by
  cases l with
  | nil => simp [visitList, segsList, renderSegs]
  | cons n tl =>
    rw [visitList, visit_renders, visitList_renders]
    simp [segsList, renderSegs_append]
end

theorem segsChain_append (c m d : Nat) (l₁ l₂ : List Seg)
    (h₁ : segsChain c l₁ m = true) (h₂ : segsChain m l₂ d = true) :
    segsChain c (l₁ ++ l₂) d = true := by
  induction l₁ generalizing c with
  | nil =>
    simp [segsChain] at h₁
    subst h₁
    simpa using h₂
  | cons s tl ih =>
    simp [segsChain] at h₁ ⊢
    exact ⟨h₁.1, ih _ h₁.2⟩

mutual
theorem segsOf_chain (r : Node → Option Text) (n : Node) (cursor : Nat) :
    segsChain cursor (segsOf r n cursor).1 (segsOf r n cursor).2 = true := by
  cases n with
  | mk k pk tx p e cs =>
    cases hr : r (Node.mk k pk tx p e cs) with
    | some s => simp [segsOf, hr, segsChain, segStart, segEnd]
    | none =>
      rw [segsOf]
      simp only [hr]
      have h := segsList_chain r cs p
      simp [segsChain, segStart, segEnd, h]
theorem segsList_chain (r : Node → Option Text) (l : NodeList) (cursor : Nat) :
    segsChain cursor (segsList r l cursor).1 (segsList r l cursor).2 = true := by
  cases l with
  | nil => simp [segsList, segsChain]
  | cons n tl =>
    rw [segsList]
    exact segsChain_append _ _ _ _ _ (segsOf_chain r n cursor) (segsList_chain r tl _)
end

mutual
theorem wfNode_bounds (lo hi : Nat) (n : Node) (h : wfNode lo hi n = true) :
    lo ≤ n.pos ∧ n.pos ≤ n.endPos ∧ n.endPos ≤ hi := by
  cases n with
  | mk k pk tx p e cs =>
    rw [wfNode] at h
    simp only [Bool.and_eq_true, decide_eq_true_eq] at h
    have := wfList_bounds p e cs h.2
    exact ⟨h.1.1, by simpa [Node.pos, Node.endPos] using this, by simpa [Node.endPos] using h.1.2⟩
theorem wfList_bounds (lo hi : Nat) (l : NodeList) (h : wfList lo hi l = true) :
    lo ≤ hi := by
  cases l with
  | nil =>
    rw [wfList] at h
    simpa using h
  | cons n tl =>
    rw [wfList] at h
    simp only [Bool.and_eq_true] at h
    have h1 := wfNode_bounds lo hi n h.1
    have h2 := wfList_bounds n.endPos hi tl h.2
    omega
end

mutual
theorem segsOf_ordered (r : Node → Option Text) (n : Node) (lo hi c : Nat)
    (hwf : wfNode lo hi n = true) (hc : c ≤ lo) :
    segsOrdered (segsOf r n c).1 = true ∧ c ≤ (segsOf r n c).2 ∧ (segsOf r n c).2 ≤ n.endPos := by
  cases n with
  | mk k pk tx p e cs =>
    rw [wfNode] at hwf
    simp only [Bool.and_eq_true, decide_eq_true_eq] at hwf
    have hpe : p ≤ e := wfList_bounds p e cs hwf.2
    cases hr : r (Node.mk k pk tx p e cs) with
    | some s =>
      simp [segsOf, hr, segsOrdered, segStart, segEnd, Node.endPos]
      omega
    | none =>
      rw [segsOf]
      simp only [hr]
      have h := segsList_ordered r cs p e p hwf.2 le_rfl
      simp only [segsOrdered, Bool.and_eq_true, decide_eq_true_eq, segStart, segEnd,
        Node.endPos] at h ⊢
      exact ⟨⟨by omega, h.1⟩, by omega, h.2.2⟩
theorem segsList_ordered (r : Node → Option Text) (l : NodeList) (lo hi c : Nat)
    (hwf : wfList lo hi l = true) (hc : c ≤ lo) :
    segsOrdered (segsList r l c).1 = true ∧ c ≤ (segsList r l c).2 ∧ (segsList r l c).2 ≤ hi := by
  cases l with
  | nil =>
    rw [wfList] at hwf
    simp only [decide_eq_true_eq] at hwf
    simp [segsList, segsOrdered]
    omega
  | cons n tl =>
    rw [wfList] at hwf
    simp only [Bool.and_eq_true] at hwf
    have h1 := segsOf_ordered r n lo hi c hwf.1 hc
    have h2 := segsList_ordered r tl n.endPos hi (segsOf r n c).2 hwf.2 h1.2.2
    rw [segsList]
    simp only [segsOrdered_append, Bool.and_eq_true]
    exact ⟨⟨h1.1, h2.1⟩, by omega, h2.2.2⟩
end

mutual
theorem segsOf_allSrc (r : Node → Option Text) (n : Node) (c : Nat)
    (hr : ∀ m, r m = none) : segsAllSrc (segsOf r n c).1 = true := by
  cases n with
  | mk k pk tx p e cs =>
    rw [segsOf]
    simp only [hr]
    have h := segsList_allSrc r cs p hr
    simpa [segsAllSrc] using h
theorem segsList_allSrc (r : Node → Option Text) (l : NodeList) (c : Nat)
    (hr : ∀ m, r m = none) : segsAllSrc (segsList r l c).1 = true := by
  cases l with
  | nil => simp [segsList, segsAllSrc]
  | cons n tl =>
    rw [segsList]
    exact segsAllSrc_append _ _ (segsOf_allSrc r n c hr) (segsList_allSrc r tl _ hr)
end

theorem segsChain_le (c d : Nat) (l : List Seg)
    (hchain : segsChain c l d = true) (hord : segsOrdered l = true) : c ≤ d := by
  induction l generalizing c with
  | nil => simp [segsChain] at hchain; omega
  | cons s tl ih =>
    simp only [segsChain, Bool.and_eq_true, decide_eq_true_eq] at hchain
    simp only [segsOrdered, Bool.and_eq_true, decide_eq_true_eq] at hord
    have := ih (segEnd s) hchain.2 hord.2
    omega

theorem renderSegs_src_chain (text : Text) (l : List Seg) (c d : Nat)
    (hsrc : segsAllSrc l = true) (hchain : segsChain c l d = true)
    (hord : segsOrdered l = true) : renderSegs text l = jsSlice text c d := by
  induction l generalizing c with
  | nil =>
    simp [segsChain] at hchain
    subst hchain
    simp [renderSegs, jsSlice]
  | cons s tl ih =>
    cases s with
    | rep a b str => simp [segsAllSrc] at hsrc
    | src a b =>
      simp only [segsAllSrc] at hsrc
      simp only [segsChain, Bool.and_eq_true, decide_eq_true_eq, segStart, segEnd] at hchain
      simp only [segsOrdered, Bool.and_eq_true, decide_eq_true_eq, segStart, segEnd] at hord
      obtain ⟨hac, hch⟩ := hchain
      have hbd : b ≤ d := segsChain_le b d tl hch hord.2
      subst hac
      rw [renderSegs]
      simp only [List.map_cons, List.flatten_cons, renderSeg]
      rw [show (tl.map (renderSeg text)).flatten = renderSegs text tl from rfl,
        ih b hsrc hch hord.2]
      exact jsSlice_append text a b d hord.1 hbd

theorem processTree_renders (text : Text) (root : Node) (r : Node → Option Text) :
    processTree text root r = renderSegs text (processSegs r root text.length) := by
  rw [processTree, processSegs, visit_renders, renderSegs_append]
  simp [renderSegs, renderSeg]

theorem processSegs_chain (text : Text) (root : Node) (r : Node → Option Text) :
    segsChain 0 (processSegs r root text.length) text.length = true := by
  rw [processSegs]
  refine segsChain_append 0 (segsOf r root 0).2 text.length _ _ (segsOf_chain r root 0) ?_
  simp [segsChain, segStart, segEnd]

theorem processSegs_ordered (text : Text) (root : Node) (r : Node → Option Text)
    (hwf : wfNode 0 text.length root = true) :
    segsOrdered (processSegs r root text.length) = true := by
  rw [processSegs]
  have h := segsOf_ordered r root 0 text.length 0 hwf le_rfl
  have hb := wfNode_bounds 0 text.length root hwf
  rw [segsOrdered_append]
  simp only [segsOrdered, segStart, segEnd, Bool.and_eq_true, decide_eq_true_eq]
  refine ⟨h.1, by omega, by simp⟩

theorem processTree_identity (text : Text) (root : Node)
    (hwf : wfNode 0 text.length root = true) :
    processTree text root (fun _ => none) = text := by
  rw [processTree_renders]
  have hsrc : segsAllSrc (processSegs (fun _ => none) root text.length) = true := by
    rw [processSegs]
    exact segsAllSrc_append _ _ (segsOf_allSrc _ root 0 fun _ => rfl) (by simp [segsAllSrc])
  rw [renderSegs_src_chain text _ 0 text.length hsrc (processSegs_chain text root _)
    (processSegs_ordered text root _ hwf)]
  simp [jsSlice]

/-- C2: for every source tree with well-formed positions and every replacer,
the rewriter's output is the rendering of a decomposition into passed-through
source spans and replacement strings that chains gaplessly from position 0 to
the end of the source with only forward spans — an exact single cover of the
original source with no gaps and no overlaps — and running it with a replacer
that returns `none` for every node yields output equal to the input. -/
theorem processTree_exact_cover (text : Text) (root : Node) (r : Node → Option Text)
    (hwf : wfNode 0 text.length root = true) :
    (processTree text root r = renderSegs text (processSegs r root text.length)
      ∧ segsChain 0 (processSegs r root text.length) text.length = true
      ∧ segsOrdered (processSegs r root text.length) = true)
    ∧ processTree text root (fun _ => none) = text :=
  ⟨⟨processTree_renders text root r, processSegs_chain text root r,
    processSegs_ordered text root r hwf⟩, processTree_identity text root hwf⟩

/-- Witness for the exact-cover theorem at a concrete declaration file,
tree and replacer. -/
theorem processTree_exact_cover_witness :
    wfNode 0 (("declare var x;").data).length
      (Node.mk (SyntaxKind.other 0) (SyntaxKind.other 0) [] 0 14
        (NodeList.cons (Node.mk SyntaxKind.declareKeyword (SyntaxKind.other 0) [] 0 8 NodeList.nil)
          NodeList.nil)) = true
    ∧ ((processTree (("declare var x;").data)
          (Node.mk (SyntaxKind.other 0) (SyntaxKind.other 0) [] 0 14
            (NodeList.cons (Node.mk SyntaxKind.declareKeyword (SyntaxKind.other 0) [] 0 8 NodeList.nil)
              NodeList.nil))
          (declReplacer (("pkg/a").data))
          = renderSegs (("declare var x;").data)
              (processSegs (declReplacer (("pkg/a").data))
                (Node.mk (SyntaxKind.other 0) (SyntaxKind.other 0) [] 0 14
                  (NodeList.cons (Node.mk SyntaxKind.declareKeyword (SyntaxKind.other 0) [] 0 8 NodeList.nil)
                    NodeList.nil))
                (("declare var x;").data).length)
        ∧ segsChain 0
            (processSegs (declReplacer (("pkg/a").data))
              (Node.mk (SyntaxKind.other 0) (SyntaxKind.other 0) [] 0 14
                (NodeList.cons (Node.mk SyntaxKind.declareKeyword (SyntaxKind.other 0) [] 0 8 NodeList.nil)
                  NodeList.nil))
              (("declare var x;").data).length)
            (("declare var x;").data).length = true
        ∧ segsOrdered
            (processSegs (declReplacer (("pkg/a").data))
              (Node.mk (SyntaxKind.other 0) (SyntaxKind.other 0) [] 0 14
                (NodeList.cons (Node.mk SyntaxKind.declareKeyword (SyntaxKind.other 0) [] 0 8 NodeList.nil)
                  NodeList.nil))
              (("declare var x;").data).length) = true)
      ∧ processTree (("declare var x;").data)
          (Node.mk (SyntaxKind.other 0) (SyntaxKind.other 0) [] 0 14
            (NodeList.cons (Node.mk SyntaxKind.declareKeyword (SyntaxKind.other 0) [] 0 8 NodeList.nil)
              NodeList.nil))
          (fun _ => none) = ("declare var x;").data) :=
  ⟨by decide, processTree_exact_cover _ _ _ (by decide)⟩

/-- C10: when the replacer returns a value for a node, the replaced span of
the original text runs from the node's full start `pos` — which includes the
node's leading trivia — to the node's `end`: the output is the text before
`pos`, then the replacement, then the text from `end` on, and the node's
subtree is not visited.  The `declare`-keyword replacement is the empty
string, so the trivia before the keyword is deleted with it, and the
reference and path-literal replacements begin with an explicit space. -/
theorem replacement_spans_full_start :
    (∀ (text s : Text) (r : Node → Option Text) (k pk k2 pk2 : SyntaxKind)
        (tx tx2 : Text) (rp re cp ce : Nat) (cs2 : NodeList),
      r (Node.mk k pk tx rp re (NodeList.cons (Node.mk k2 pk2 tx2 cp ce cs2) NodeList.nil)) = none →
      r (Node.mk k2 pk2 tx2 cp ce cs2) = some s →
      rp ≤ cp →
      processTree text (Node.mk k pk tx rp re (NodeList.cons (Node.mk k2 pk2 tx2 cp ce cs2) NodeList.nil)) r
        = List.take cp text ++ s ++ List.drop ce text)
    ∧ (∀ (mid tx : Text) (pk : SyntaxKind) (p e : Nat) (cs : NodeList),
      declReplacer mid (Node.mk SyntaxKind.declareKeyword pk tx p e cs) = some [])
    ∧ (∀ (mid t : Text) (pk : SyntaxKind) (p e : Nat) (cs : NodeList), t.head? = some '.' →
      ∃ rest, declReplacer mid (Node.mk SyntaxKind.externalModuleReference pk t p e cs)
        = some (' ' :: rest))
    ∧ (∀ (mid t : Text) (p e : Nat) (cs : NodeList), t.head? = some '.' →
      ∃ rest, declReplacer mid (Node.mk SyntaxKind.stringLiteral SyntaxKind.importDeclaration t p e cs)
        = some (' ' :: rest)) := by
  refine ⟨?_, ?_, ?_, ?_⟩
  · intro text s r k pk k2 pk2 tx tx2 rp re cp ce cs2 hroot hchild hle
    rw [processTree]
    rw [visit]
    simp only [hroot]
    rw [visitList, visit]
    simp only [hchild]
    rw [visitList]
    rw [List.nil_append, jsSlice_append text 0 rp cp (Nat.zero_le rp) hle]
    simp [jsSlice]
  · intro mid tx pk p e cs
    simp [declReplacer, Node.kind]
  · intro mid t pk p e cs h
    exact ⟨("require(\x27").data ++ pathJoin (pathDirname mid) t ++ ("\x27)").data,
      by simp [declReplacer, Node.kind, Node.text, h]⟩
  · intro mid t p e cs h
    exact ⟨("\x27").data ++ pathJoin (pathDirname mid) t ++ ("\x27").data,
      by simp [declReplacer, Node.kind, Node.parentKind, Node.text, h]⟩

/-- Witness for the replacement-span theorem: a concrete `declare` keyword
with two characters of leading trivia is removed together with that trivia,
and the two rewrite forms start with a space. -/
theorem replacement_spans_full_start_witness :
    processTree (("x; declare var y;").data)
        (Node.mk (SyntaxKind.other 0) (SyntaxKind.other 0) [] 0 18
          (NodeList.cons (Node.mk SyntaxKind.declareKeyword (SyntaxKind.other 0) [] 2 10 NodeList.nil)
            NodeList.nil))
        (declReplacer (("pkg/a").data))
      = List.take 2 (("x; declare var y;").data) ++ [] ++ List.drop 10 (("x; declare var y;").data)
    ∧ declReplacer (("pkg/a").data)
        (Node.mk SyntaxKind.declareKeyword (SyntaxKind.other 0) [] 2 10 NodeList.nil) = some []
    ∧ (∃ rest, declReplacer (("pkg/a").data)
        (Node.mk SyntaxKind.externalModuleReference (SyntaxKind.other 0) (("./x").data) 0 0 NodeList.nil)
          = some (' ' :: rest))
    ∧ (∃ rest, declReplacer (("pkg/a").data)
        (Node.mk SyntaxKind.stringLiteral SyntaxKind.importDeclaration (("./x").data) 0 0 NodeList.nil)
          = some (' ' :: rest)) :=
  ⟨replacement_spans_full_start.1 (("x; declare var y;").data) [] _ _ _ _ _ _ _ _ _ _ _ _
      (by decide) (by decide) (by decide),
    replacement_spans_full_start.2.1 (("pkg/a").data) [] (SyntaxKind.other 0) 2 10 NodeList.nil,
    replacement_spans_full_start.2.2.1 (("pkg/a").data) (("./x").data) (SyntaxKind.other 0) 0 0
      NodeList.nil (by decide),
    replacement_spans_full_start.2.2.2 (("pkg/a").data) (("./x").data) 0 0 NodeList.nil (by decide)⟩

/-- C6: a cross-module reference whose quoted target path starts with `.` is
replaced by the same require form with the path replaced by the join of the
directory of the current file's module id with the relative path, while a
reference whose path does not start with `.` is left without replacement;
the join resolves `./x` under the module id `mylib/a/b` to `mylib/a/x`. -/
theorem relative_reference_rewrite :
    (∀ (mid t : Text) (pk : SyntaxKind) (p e : Nat) (cs : NodeList),
      t.head? = some '.' →
      declReplacer mid (Node.mk SyntaxKind.externalModuleReference pk t p e cs)
        = some ((" require(\x27").data ++ pathJoin (pathDirname mid) t ++ ("\x27)").data))
    ∧ (∀ (mid t : Text) (pk : SyntaxKind) (p e : Nat) (cs : NodeList),
      t.head? ≠ some '.' →
      declReplacer mid (Node.mk SyntaxKind.externalModuleReference pk t p e cs) = none)
    ∧ pathJoin (pathDirname (("mylib/a/b").data)) (("./x").data) = ("mylib/a/x").data := by
  refine ⟨?_, ?_, by decide⟩
  · intro mid t pk p e cs h
    simp [declReplacer, Node.kind, Node.text, h]
  · intro mid t pk p e cs h
    simp [declReplacer, Node.kind, Node.text, h]

/-- Witness for the relative-reference rewrite at the spec's example. -/
theorem relative_reference_rewrite_witness :
    declReplacer (("mylib/a/b").data)
        (Node.mk SyntaxKind.externalModuleReference (SyntaxKind.other 0) (("./x").data) 0 0 NodeList.nil)
      = some ((" require(\x27").data ++ pathJoin (pathDirname (("mylib/a/b").data)) (("./x").data)
          ++ ("\x27)").data)
    ∧ declReplacer (("mylib/a/b").data)
        (Node.mk SyntaxKind.externalModuleReference (SyntaxKind.other 0) (("x").data) 0 0 NodeList.nil)
      = none
    ∧ pathJoin (pathDirname (("mylib/a/b").data)) (("./x").data) = ("mylib/a/x").data :=
  ⟨relative_reference_rewrite.1 _ _ _ _ _ _ (by decide),
    relative_reference_rewrite.2.1 _ _ _ _ _ _ (by decide),
    relative_reference_rewrite.2.2⟩

theorem jsSliceNeg_strip (b r suf : Text) (hsuf : suf.length = 5) :
    jsSliceNeg (b ++ r ++ suf) b.length 5 = r := by
  unfold jsSliceNeg
  have hlen : (b ++ r ++ suf).length = b.length + r.length + 5 := by
    simp [hsuf]
    omega
  have h1 : (b ++ r ++ suf).drop b.length = r ++ suf := by
    rw [List.append_assoc, List.drop_left]
  rw [hlen, h1, show b.length + r.length + 5 - 5 - b.length = r.length by omega, List.take_left]

/-- A path made of the given segments, each preceded by the separator. -/
def pathOfSegs (sep : Char) (segs : List Text) : Text := (segs.map (fun s => sep :: s)).flatten

theorem flatten_sep_intercalate (c : Char) (segs : List Text) (h : segs ≠ []) :
    (segs.map (fun s => c :: s)).flatten = c :: List.intercalate [c] segs := by
  induction segs with
  | nil => simp at h
  | cons s t ih =>
    cases t with
    | nil => simp [List.intercalate]
    | cons s2 t2 =>
      have := ih (by simp)
      simp only [List.map_cons, List.flatten_cons] at this ⊢
      rw [this]
      simp [List.intercalate]

theorem map_sep_id (sep : Char) (s : Text) (h : sep ∉ s) :
    s.map (fun c => if c = sep then '/' else c) = s := by
  induction s with
  | nil => rfl
  | cons a t ih =>
    simp only [List.mem_cons, not_or] at h
    have ha : ¬a = sep := fun hh => h.1 hh.symm
    simp [ih h.2, ha]

/-- C5: the module id of a file under the base directory is the namespace
name followed by the file's path relative to the base directory with the
declaration suffix stripped and every separator as a forward slash, and it
is the same on a `/` host and on a `\` host. -/
theorem moduleId_cross_platform (name base base2 : Text) (segs : List Text)
    (hne : segs ≠ [])
    (hfree : ∀ s ∈ segs, ('\\' : Char) ∉ s) :
    sourceModuleId '/' name base (base ++ pathOfSegs '/' segs ++ (".d.ts").data)
      = name ++ '/' :: List.intercalate ['/'] segs
    ∧ sourceModuleId '\\' name base2 (base2 ++ pathOfSegs '\\' segs ++ (".d.ts").data)
      = name ++ '/' :: List.intercalate ['/'] segs := by
  constructor
  · rw [sourceModuleId, jsSliceNeg_strip _ _ _ (by decide), pathOfSegs,
      flatten_sep_intercalate _ _ hne]
    simp [filenameToMid]
  · rw [sourceModuleId, jsSliceNeg_strip _ _ _ (by decide)]
    have hstep : filenameToMid '\\' (pathOfSegs '\\' segs) = pathOfSegs '/' segs := by
      rw [filenameToMid, if_neg (by decide), pathOfSegs, pathOfSegs, List.map_flatten,
        List.map_map]
      congr 1
      refine List.map_congr_left fun s hs => ?_
      simp only [Function.comp_apply, List.map_cons]
      rw [map_sep_id _ _ (hfree s hs)]
      simp
    rw [hstep, pathOfSegs, flatten_sep_intercalate _ _ hne]

/-- Witness for the module-id theorem at the spec's example:
`<base>/foo/bar.d.ts` under namespace `mylib` on both host conventions. -/
theorem moduleId_cross_platform_witness :
    sourceModuleId '/' (("mylib").data) (("/base").data)
        ((("/base").data) ++ pathOfSegs '/' [("foo").data, ("bar").data] ++ (".d.ts").data)
      = ("mylib").data ++ '/' :: List.intercalate ['/'] [("foo").data, ("bar").data]
    ∧ sourceModuleId '\\' (("mylib").data) (("C:\\base").data)
        ((("C:\\base").data) ++ pathOfSegs '\\' [("foo").data, ("bar").data] ++ (".d.ts").data)
      = ("mylib").data ++ '/' :: List.intercalate ['/'] [("foo").data, ("bar").data] :=
  moduleId_cross_platform (("mylib").data) (("/base").data) (("C:\\base").data)
    [("foo").data, ("bar").data] (by decide) (by decide)

theorem digitList_mem (d : Nat) :
    digitChar d ∈ (['0', '1', '2', '3', '4', '5', '6', '7', '8', '9'] : List Char) := by
  by_cases h : d < 10
  · interval_cases d <;> decide
  · have h0 : digitChar d = '0' := by
      unfold digitChar
      rw [List.getD_eq_default]
      simp
      omega
    rw [h0]
    decide

theorem natDigitsAux_mem (fuel n : Nat) (c : Char) (h : c ∈ natDigitsAux fuel n) :
    c ∈ (['0', '1', '2', '3', '4', '5', '6', '7', '8', '9'] : List Char) := by
  induction fuel generalizing n with
  | zero => simp [natDigitsAux] at h
  | succ f ih =>
    rw [natDigitsAux] at h
    by_cases hn : n = 0
    · simp [hn] at h
    · rw [if_neg hn] at h
      rcases List.mem_append.mp h with h1 | h1
      · exact ih _ h1
      · simp at h1
        rw [h1]
        exact digitList_mem _

theorem natToText_no_newline (n : Nat) : '\n' ∉ natToText n := by
  intro h
  rw [natToText] at h
  by_cases hn : n = 0
  · rw [if_pos hn] at h
    simp at h
  · rw [if_neg hn] at h
    have := natDigitsAux_mem _ _ _ h
    simp at this

theorem foldl_append_flatten {β : Type} (g : β → Text) (init : Text) (ds : List β) :
    ds.foldl (fun m d => m ++ g d) init = init ++ (ds.map g).flatten := by
  induction ds generalizing init with
  | nil => simp
  | cons d tl ih => simp [List.foldl_cons, ih, List.append_assoc]

theorem getError_flatten (ds : List Diagnostic) :
    getError ds = ("Declaration generation failed").data
      ++ (ds.map (fun d => '\n' :: diagLine d)).flatten := by
  rw [getError]
  rw [show (fun (message : Text) (d : Diagnostic) =>
      message ++ ('\n' :: d.fileName) ++ ("(").data ++ natToText (d.line + 1) ++ (",").data
        ++ natToText (d.character + 1) ++ ("): error TS").data ++ natToText d.code
        ++ (": ").data ++ d.messageText)
    = (fun (m : Text) (d : Diagnostic) => m ++ ('\n' :: diagLine d)) from ?_]
  · exact foldl_append_flatten _ _ ds
  · funext m d
    simp [diagLine, List.append_assoc]

theorem splitOnChar_ne_nil (c : Char) (t : Text) : splitOnChar c t ≠ [] := by
  induction t with
  | nil => simp [splitOnChar]
  | cons x xs ih =>
    rw [splitOnChar]
    by_cases hx : x = c
    · simp [hx]
    · rw [if_neg hx]
      cases h : splitOnChar c xs with
      | nil => simp
      | cons l ls => simp

theorem splitOnChar_append_free (c : Char) (a r : Text) (l : Text) (ls : List Text)
    (hfree : c ∉ a) (hr : splitOnChar c r = l :: ls) :
    splitOnChar c (a ++ r) = (a ++ l) :: ls := by
  induction a with
  | nil => simpa using hr
  | cons x xs ih =>
    simp only [List.mem_cons, not_or] at hfree
    rw [List.cons_append, splitOnChar, if_neg (fun hh => hfree.1 hh.symm)]
    rw [ih hfree.2]
    simp

theorem splitOnChar_flatten (c : Char) (lines : List Text)
    (hfree : ∀ l ∈ lines, c ∉ l) :
    splitOnChar c ((lines.map (fun l => c :: l)).flatten) = [] :: lines := by
  induction lines with
  | nil => simp [splitOnChar]
  | cons L rest ih =>
    simp only [List.map_cons, List.flatten_cons]
    rw [List.cons_append, splitOnChar, if_pos rfl]
    have hrest := ih (fun l hl => hfree l (List.mem_cons_of_mem _ hl))
    rw [splitOnChar_append_free c L _ _ _ (hfree L (List.mem_cons_self _ _)) hrest]
    simp

theorem diagLine_no_newline (d : Diagnostic) (h1 : '\n' ∉ d.fileName)
    (h2 : '\n' ∉ d.messageText) : '\n' ∉ diagLine d := by
  intro h
  simp only [diagLine, List.append_assoc, List.mem_append] at h
  rcases h with h | h | h | h | h | h | h | h | h
  · exact h1 h
  · simp at h
  · exact natToText_no_newline _ h
  · simp at h
  · exact natToText_no_newline _ h
  · simp at h
  · exact natToText_no_newline _ h
  · simp at h
  · exact h2 h

/-- C8 (amended): for every non-empty diagnostic list whose file names and
messages contain no line break, the fatal error's message splits at line
breaks into the fixed header line followed by exactly one line per
diagnostic of the form `file(line,col): error TS<code>: <message>`, with
line and column 1-based.  (The claim's `error T<code>` does not match the
code, which writes `error TS<code>`.) -/
theorem getError_message_lines (ds : List Diagnostic)
    (h : ∀ d ∈ ds, '\n' ∉ d.fileName ∧ '\n' ∉ d.messageText) :
    splitOnChar '\n' (getError ds)
      = ("Declaration generation failed").data :: ds.map diagLine := by
  rw [getError_flatten]
  have hlines : ∀ l ∈ ds.map diagLine, '\n' ∉ l := by
    intro l hl
    rcases List.mem_map.mp hl with ⟨d, hd, rfl⟩
    exact diagLine_no_newline d (h d hd).1 (h d hd).2
  have hsplit := splitOnChar_flatten '\n' (ds.map diagLine) hlines
  rw [show (ds.map fun d => '\n' :: diagLine d) = (ds.map diagLine).map (fun l => '\n' :: l) by
    rw [List.map_map]
    rfl]
  rw [splitOnChar_append_free '\n' _ _ _ _ (by decide) hsplit]
  simp

/-- C8 counterexample: for a diagnostic with code 7 at position (0,0) the
message line is `a.ts(1,1): error TS7: bad`, not the claimed form
`a.ts(1,1): error T7: bad`. -/
theorem getError_claim_format_cex :
    splitOnChar '\n' (getError [⟨("a.ts").data, 0, 0, 7, ("bad").data⟩])
      ≠ [("Declaration generation failed").data, ("a.ts(1,1): error T7: bad").data]
    ∧ splitOnChar '\n' (getError [⟨("a.ts").data, 0, 0, 7, ("bad").data⟩])
      = [("Declaration generation failed").data, ("a.ts(1,1): error TS7: bad").data] :=
  ⟨by decide, by decide⟩

/-- Witness for the amended diagnostic-format theorem on a concrete
two-diagnostic list. -/
theorem getError_message_lines_witness :
    splitOnChar '\n' (getError [⟨("a.ts").data, 0, 0, 7, ("bad").data⟩,
        ⟨("b.ts").data, 2, 4, 2304, ("worse").data⟩])
      = ("Declaration generation failed").data
        :: [Diagnostic.mk (("a.ts").data) 0 0 7 (("bad").data),
            Diagnostic.mk (("b.ts").data) 2 4 2304 (("worse").data)].map diagLine :=
  getError_message_lines _ (by decide)

theorem nelsGo_skip (eol ind a u : Text) :
    nelsGo eol ind a.length (a ++ u) = nelsGo eol ind 0 u := by
  induction a with
  | nil => simp
  | cons c a2 ih =>
    rw [List.cons_append, List.length_cons, nelsGo]
    exact ih

theorem splitGo_skip (eol a u : Text) :
    splitGo eol a.length (a ++ u) = splitGo eol 0 u := by
  induction a with
  | nil => simp
  | cons c a2 ih =>
    rw [List.cons_append, List.length_cons, splitGo]
    exact ih

theorem splitGo_ne_nil (eol : Text) (k : Nat) (t : Text) : splitGo eol k t ≠ [] := by
  induction t generalizing k with
  | nil => cases k <;> simp [splitGo]
  | cons c rest ih =>
    cases k with
    | zero =>
      rw [splitGo]
      by_cases h : eol ≠ [] ∧ eol.isPrefixOf (c :: rest)
      · rw [if_pos h]
        simp
      · rw [if_neg h]
        cases hs : splitGo eol 0 rest with
        | nil => simp
        | cons l ls => simp
    | succ k2 =>
      rw [splitGo]
      exact ih k2

theorem overlapFree_take_drop (eol : Text) (hof : overlapFreeB eol = true) (k : Nat)
    (h1 : 0 < k) (h2 : k < eol.length) :
    List.take (eol.length - k) eol ≠ List.drop k eol := by
  rw [overlapFreeB, List.all_eq_true] at hof
  have := hof k (List.mem_range.mpr h2)
  simpa [Nat.pos_iff_ne_zero.mp h1] using this

theorem not_isPrefixOf_window (eol u : Text) (hof : overlapFreeB eol = true) (k : Nat)
    (h1 : 0 < k) (h2 : k < eol.length) :
    ¬ eol.isPrefixOf (eol.drop k ++ u) = true := by
  intro hp
  rw [List.isPrefixOf_iff_prefix] at hp
  obtain ⟨t2, ht⟩ := hp
  apply overlapFree_take_drop eol hof k h1 h2
  have h1x : (eol ++ t2).take (eol.length - k) = eol.take (eol.length - k) :=
    List.take_append_of_le_length (by omega)
  have h2x : (eol.drop k ++ u).take (eol.length - k) = (eol.drop k).take (eol.length - k) :=
    List.take_append_of_le_length (by simp)
  have h3x : (eol.drop k).take (eol.length - k) = eol.drop k :=
    List.take_of_length_le (by simp)
  calc eol.take (eol.length - k) = (eol ++ t2).take (eol.length - k) := h1x.symm
    _ = (eol.drop k ++ u).take (eol.length - k) := by rw [ht]
    _ = eol.drop k := by rw [h2x, h3x]

theorem nelsGo_window (eol ind : Text) (hof : overlapFreeB eol = true) :
    ∀ m k u, eol.length - k = m → 0 < k → k ≤ eol.length →
      nelsGo eol ind 0 (eol.drop k ++ u) = eol.drop k ++ nelsGo eol ind 0 u := by
  intro m
  induction m with
  | zero =>
    intro k u hm h1 h2
    have hk : k = eol.length := by omega
    simp [hk]
  | succ m2 ih =>
    intro k u hm h1 h2
    have hkL : k < eol.length := by omega
    have hdrop : eol.drop k = eol[k] :: eol.drop (k + 1) := List.drop_eq_getElem_cons hkL
    rw [hdrop, List.cons_append, nelsGo]
    rw [if_neg ?hcond]
    case hcond =>
      intro hcond
      have hp := hcond.2.1
      rw [← List.cons_append, ← hdrop] at hp
      exact not_isPrefixOf_window eol u hof k h1 hkL hp
    rw [show eol.drop (k + 1) ++ u = eol.drop (k + 1) ++ u from rfl]
    by_cases hk1 : k + 1 ≤ eol.length
    · rw [ih (k + 1) u (by omega) (by omega) hk1]
      exact (List.cons_append _ _ _).symm
    · omega

theorem splitGo_break (eol u : Text) (hne : eol ≠ []) :
    splitGo eol 0 (eol ++ u) = [] :: splitGo eol 0 u := by
  cases eol with
  | nil => exact absurd rfl hne
  | cons e0 etail =>
    rw [List.cons_append, splitGo,
      if_pos ⟨by simp, by
        rw [← List.cons_append]
        exact List.isPrefixOf_iff_prefix.mpr (List.prefix_append _ u)⟩]
    congr 1
    rw [show (e0 :: etail).length - 1 = etail.length by simp]
    exact splitGo_skip (e0 :: etail) etail u

theorem specIndent_copy (eol ind : Text) (c : Char) (rest : Text)
    (hpre : ¬ eol.isPrefixOf (c :: rest) = true) :
    specIndentLines eol ind (c :: rest) = c :: specIndentLines eol ind rest := by
  rw [specIndentLines, specIndentLines, splitEol, splitEol]
  rw [show splitGo eol 0 (c :: rest)
      = match splitGo eol 0 rest with
        | [] => [[c]]
        | l :: ls => (c :: l) :: ls from by
    rw [splitGo, if_neg (fun hcond => hpre hcond.2)]]
  cases hs : splitGo eol 0 rest with
  | nil => exact absurd hs (splitGo_ne_nil _ _ _)
  | cons l ls => simp

theorem specIndent_break (eol ind u : Text) (hne : eol ≠ []) :
    specIndentLines eol ind (eol ++ u)
      = eol ++ (if u = [] ∨ eol.isPrefixOf u = true then specIndentLines eol ind u
          else ind ++ specIndentLines eol ind u) := by
  rw [specIndentLines, splitEol, splitGo_break eol u hne]
  by_cases hla : u = [] ∨ eol.isPrefixOf u = true
  · rw [if_pos hla]
    rcases hla with hla | hla
    · subst hla
      simp [specIndentLines, splitEol, splitGo]
    · cases u with
      | nil => simp [specIndentLines, splitEol, splitGo]
      | cons c2 u2 =>
        obtain ⟨u3, hu3⟩ := List.isPrefixOf_iff_prefix.mp hla
        rw [← hu3, splitGo_break eol u3 hne]
        rw [specIndentLines, splitEol, splitGo_break eol u3 hne]
        simp
  · rw [if_neg hla]
    push_neg at hla
    cases u with
    | nil => exact absurd rfl hla.1
    | cons c2 u2 =>
      rw [show splitGo eol 0 (c2 :: u2)
          = match splitGo eol 0 u2 with
            | [] => [[c2]]
            | l :: ls => (c2 :: l) :: ls from by
        rw [splitGo, if_neg (fun hcond => hla.2 (by simpa using hcond.2))]]
      rw [specIndentLines, splitEol]
      rw [show splitGo eol 0 (c2 :: u2)
          = match splitGo eol 0 u2 with
            | [] => [[c2]]
            | l :: ls => (c2 :: l) :: ls from by
        rw [splitGo, if_neg (fun hcond => hla.2 (by simpa using hcond.2))]]
      cases hs : splitGo eol 0 u2 with
      | nil => exact absurd hs (splitGo_ne_nil _ _ _)
      | cons l2 ls2 => simp [List.append_assoc]

theorem nelsGo_eq_specIndent (eol ind : Text) (hne : eol ≠ []) (hof : overlapFreeB eol = true) :
    ∀ n t, t.length ≤ n → nelsGo eol ind 0 t = specIndentLines eol ind t := by
  intro n
  induction n with
  | zero =>
    intro t ht
    have h0 : t = [] := List.eq_nil_of_length_eq_zero (by omega)
    subst h0
    simp [nelsGo, specIndentLines, splitEol, splitGo]
  | succ n2 ih =>
    intro t ht
    cases t with
    | nil => simp [nelsGo, specIndentLines, splitEol, splitGo]
    | cons c rest =>
      by_cases hpre : eol.isPrefixOf (c :: rest) = true
      · obtain ⟨u, hu⟩ := List.isPrefixOf_iff_prefix.mp hpre
        rw [← hu, specIndent_break eol ind u hne]
        cases eol with
        | nil => exact absurd rfl hne
        | cons e0 etail =>
          have hulen : u.length ≤ n2 := by
            have hlen := congrArg List.length hu
            simp only [List.length_cons, List.length_append] at hlen ht
            omega
          have hdropL : (e0 :: etail ++ u).drop (e0 :: etail).length = u := by
            simp only [List.length_cons, List.cons_append, List.drop_succ_cons]
            exact List.drop_left etail u
          by_cases hla : u = [] ∨ (e0 :: etail).isPrefixOf u = true
          · rw [if_pos hla]
            simp only [List.cons_append] at hdropL ⊢
            rw [nelsGo, if_neg (fun hcond => hcond.2.2 (by rw [hdropL]; exact hla))]
            have hwin := nelsGo_window (e0 :: etail) ind hof
              ((e0 :: etail).length - 1) 1 u rfl Nat.one_pos (by simp)
            simp only [List.drop_succ_cons, List.drop_zero] at hwin
            rw [hwin, ih u hulen]
          · rw [if_neg hla]
            simp only [List.cons_append] at hdropL ⊢
            rw [nelsGo,
              if_pos ⟨by simp, by
                  rw [← List.cons_append]
                  exact List.isPrefixOf_iff_prefix.mpr (List.prefix_append _ u),
                fun hcond => hla (by rw [hdropL] at hcond; exact hcond)⟩]
            rw [show (e0 :: etail).length - 1 = etail.length by simp,
              nelsGo_skip (e0 :: etail) ind etail u, ih u hulen]
            simp [List.append_assoc]
      · rw [nelsGo, if_neg (fun hcond => hpre hcond.2.1)]
        have hrlen : rest.length ≤ n2 := by
          simp only [List.length_cons] at ht
          omega
        rw [ih rest hrlen]
        exact (specIndent_copy eol ind c rest hpre).symm

/-- C7: the indentation step inserts the configured indent string after
every line break except at a position immediately followed by another line
break or by the end of the text, and the first line is never indented —
stated as agreement between the code's regex replacement and the spec-side
line-by-line description, for a nonempty break string with no nontrivial
border (true of both real line endings). -/
theorem indentation_matches_spec (eol ind text : Text) (hne : eol ≠ [])
    (hof : overlapFreeB eol = true) :
    replaceNonEmptyLineStart eol ind text = specIndentLines eol ind text := by
  rw [replaceNonEmptyLineStart]
  exact nelsGo_eq_specIndent eol ind hne hof text.length text le_rfl

/-- Witness for the indentation theorem with a CRLF line ending, a tab
indent and a text with an interior blank line and a trailing newline. -/
theorem indentation_matches_spec_witness :
    ('\r' :: '\n' :: []) ≠ []
    ∧ overlapFreeB ('\r' :: '\n' :: []) = true
    ∧ replaceNonEmptyLineStart ('\r' :: '\n' :: []) ['\t'] (("a\r\nb\r\n\r\nc\r\n").data)
      = specIndentLines ('\r' :: '\n' :: []) ['\t'] (("a\r\nb\r\n\r\nc\r\n").data) :=
  ⟨by decide, by decide, indentation_matches_spec _ _ _ (by decide) (by decide)⟩

/-- C1 counterexample: a `.d.ts` input that carries an external-module
indicator is not written through raw — its queued writes are the wrapped
module block, not the file's text. -/
theorem dts_passthrough_cex :
    (fileStep ⟨'/', ("pkg").data, ("/b").data, ['\n'], ['\t']⟩
        ⟨fun _ => ⟨false, [], []⟩, fun _ => [], fun _ => [], fun _ => []⟩ []
        ⟨("/b/a.d.ts").data, ("export var x;").data,
          Node.mk (SyntaxKind.other 0) (SyntaxKind.other 0) [] 0 13 NodeList.nil, true⟩).1
      ≠ [("export var x;").data] := by decide

/-- C1 (amended): a `.d.ts` input under the base directory and not excluded
skips compilation and goes straight to `writeDeclaration`; its full raw text
is written through unchanged exactly when it has no external-module
indicator (with one, it is wrapped and rewritten like generated output). -/
theorem dts_passthrough_amended (ctx : GenCtx) (comp : Compiler) (excl : List Text)
    (f : SourceFile) (hdts : endsWithDts f.fileName = true)
    (hbase : ctx.baseDir.isPrefixOf (pathNormalize f.fileName) = true)
    (hexcl : excl.contains f.fileName = false) :
    fileStep ctx comp excl f = (writeDeclaration ctx f, none)
    ∧ (f.externalModuleIndicator = false → writeDeclaration ctx f = [f.text]) := by
  constructor
  · rw [fileStep, if_neg (by simp [hbase]), if_neg (by simpa using hexcl), if_pos hdts]
  · intro hind
    rw [writeDeclaration, if_neg (by simp [hind])]

/-- Witness for the amended `.d.ts` pass-through theorem on a concrete
indicator-free declaration file. -/
theorem dts_passthrough_amended_witness :
    fileStep ⟨'/', ("pkg").data, ("/b").data, ['\n'], ['\t']⟩
        ⟨fun _ => ⟨false, [], []⟩, fun _ => [], fun _ => [], fun _ => []⟩ []
        ⟨("/b/a.d.ts").data, ("declare var x;").data,
          Node.mk (SyntaxKind.other 0) (SyntaxKind.other 0) [] 0 14 NodeList.nil, false⟩
      = (writeDeclaration ⟨'/', ("pkg").data, ("/b").data, ['\n'], ['\t']⟩
          ⟨("/b/a.d.ts").data, ("declare var x;").data,
            Node.mk (SyntaxKind.other 0) (SyntaxKind.other 0) [] 0 14 NodeList.nil, false⟩, none)
    ∧ ((false : Bool) = false → writeDeclaration ⟨'/', ("pkg").data, ("/b").data, ['\n'], ['\t']⟩
          ⟨("/b/a.d.ts").data, ("declare var x;").data,
            Node.mk (SyntaxKind.other 0) (SyntaxKind.other 0) [] 0 14 NodeList.nil, false⟩
        = [("declare var x;").data]) :=
  dts_passthrough_amended _ _ _ _ (by decide) (by decide) (by decide)

/-- C3 counterexample: with a configured main module, a run whose first file
fails still queues the trailing alias-block writes after the rejection —
the claim that no further writes are queued after the failure is false. -/
theorem abort_queues_alias_cex :
    (generateRun '/' ['\n'] (("/").data)
        ⟨fun _ => ⟨false, [⟨("bad.ts").data, 0, 0, 1, ("x").data⟩], []⟩,
          fun _ => [], fun _ => [], fun _ => []⟩
        ⟨("/b").data, [], [], [], none, none, some (("./a").data), ("pkg").data⟩
        [⟨("/b/bad.ts").data, ("var x").data,
            Node.mk (SyntaxKind.other 0) (SyntaxKind.other 0) [] 0 5 NodeList.nil, false⟩,
         ⟨("/b/good.d.ts").data, ("G").data,
            Node.mk (SyntaxKind.other 0) (SyntaxKind.other 0) [] 0 1 NodeList.nil, false⟩]).2.1
      ≠ none
    ∧ (generateRun '/' ['\n'] (("/").data)
        ⟨fun _ => ⟨false, [⟨("bad.ts").data, 0, 0, 1, ("x").data⟩], []⟩,
          fun _ => [], fun _ => [], fun _ => []⟩
        ⟨("/b").data, [], [], [], none, none, some (("./a").data), ("pkg").data⟩
        [⟨("/b/bad.ts").data, ("var x").data,
            Node.mk (SyntaxKind.other 0) (SyntaxKind.other 0) [] 0 5 NodeList.nil, false⟩,
         ⟨("/b/good.d.ts").data, ("G").data,
            Node.mk (SyntaxKind.other 0) (SyntaxKind.other 0) [] 0 1 NodeList.nil, false⟩]).1 = []
    ∧ (generateRun '/' ['\n'] (("/").data)
        ⟨fun _ => ⟨false, [⟨("bad.ts").data, 0, 0, 1, ("x").data⟩], []⟩,
          fun _ => [], fun _ => [], fun _ => []⟩
        ⟨("/b").data, [], [], [], none, none, some (("./a").data), ("pkg").data⟩
        [⟨("/b/bad.ts").data, ("var x").data,
            Node.mk (SyntaxKind.other 0) (SyntaxKind.other 0) [] 0 5 NodeList.nil, false⟩,
         ⟨("/b/good.d.ts").data, ("G").data,
            Node.mk (SyntaxKind.other 0) (SyntaxKind.other 0) [] 0 1 NodeList.nil, false⟩]).2.2
      ≠ [] := by
  refine ⟨by decide, by decide, by decide⟩

/-- C3 (amended): when the compiler reports diagnostics (or skips emission)
for a file, the run fails with that one error and no later input file is
processed — the loop's writes are exactly those of the earlier files plus
the failing file's emit-callback writes; however, when a main module path is
configured, the trailing alias-block writes are still queued after the
failure. -/
theorem abort_short_circuits :
    (∀ (ctx : GenCtx) (comp : Compiler) (excl : List Text) (pre : List SourceFile)
        (f : SourceFile) (post : List SourceFile) (e : Text),
      (∀ g ∈ pre, (fileStep ctx comp excl g).2 = none) →
      (fileStep ctx comp excl f).2 = some e →
      filesLoop ctx comp excl (pre ++ f :: post)
        = ((pre.map fun g => (fileStep ctx comp excl g).1).flatten
            ++ (fileStep ctx comp excl f).1, some e))
    ∧ (∀ (sep : Char) (host cwd : Text) (comp : Compiler) (opts : GenOptions)
        (sfs : List SourceFile) (m : Text), opts.main = some m →
      (generateRun sep host cwd comp opts sfs).2.2 ≠ []) := by
  constructor
  · intro ctx comp excl pre f post e hpre hf
    induction pre with
    | nil =>
      rw [List.nil_append, filesLoop, hf]
      simp
    | cons g pre2 ih =>
      rw [List.cons_append, filesLoop, hpre g (List.mem_cons_self _ _)]
      rw [ih (fun g2 hg2 => hpre g2 (List.mem_cons_of_mem _ hg2))]
      simp [List.append_assoc]
  · intro sep host cwd comp opts sfs m hm
    rw [generateRun]
    simp only [hm]
    rw [mainAliasWrites]
    simp

/-- Witness for the abort theorem: a raw declaration file, then a file whose
emission is skipped, then a file that is never processed. -/
theorem abort_short_circuits_witness :
    filesLoop ⟨'/', ("pkg").data, ("/b").data, ['\n'], ['\t']⟩
        ⟨fun _ => ⟨true, [], []⟩, fun _ => [], fun _ => [], fun _ => []⟩ []
        ([⟨("/b/raw.d.ts").data, ("R").data,
            Node.mk (SyntaxKind.other 0) (SyntaxKind.other 0) [] 0 1 NodeList.nil, false⟩]
          ++ ⟨("/b/bad.ts").data, ("var x").data,
              Node.mk (SyntaxKind.other 0) (SyntaxKind.other 0) [] 0 5 NodeList.nil, false⟩
            :: [⟨("/b/late.d.ts").data, ("L").data,
                Node.mk (SyntaxKind.other 0) (SyntaxKind.other 0) [] 0 1 NodeList.nil, false⟩])
      = (([⟨("/b/raw.d.ts").data, ("R").data,
            Node.mk (SyntaxKind.other 0) (SyntaxKind.other 0) [] 0 1 NodeList.nil, false⟩].map
          fun g => (fileStep ⟨'/', ("pkg").data, ("/b").data, ['\n'], ['\t']⟩
            ⟨fun _ => ⟨true, [], []⟩, fun _ => [], fun _ => [], fun _ => []⟩ [] g).1).flatten
          ++ (fileStep ⟨'/', ("pkg").data, ("/b").data, ['\n'], ['\t']⟩
            ⟨fun _ => ⟨true, [], []⟩, fun _ => [], fun _ => [], fun _ => []⟩ []
            ⟨("/b/bad.ts").data, ("var x").data,
              Node.mk (SyntaxKind.other 0) (SyntaxKind.other 0) [] 0 5 NodeList.nil, false⟩).1,
          some (getError []))
    ∧ (generateRun '/' ['\n'] (("/").data)
        ⟨fun _ => ⟨true, [], []⟩, fun _ => [], fun _ => [], fun _ => []⟩
        ⟨("/b").data, [], [], [], none, none, some (("./a").data), ("pkg").data⟩ []).2.2 ≠ [] :=
  ⟨abort_short_circuits.1 _ _ _ _ _ _ _ (by decide) (by decide),
    abort_short_circuits.2 '/' ['\n'] (("/").data) _ _ [] (("./a").data) rfl⟩

set_option maxRecDepth 4000 in
/-- C4 counterexample: with namespace `pkg` and main `./a` the generated
output contains the verbatim import target `require('./a')` and nowhere the
claimed namespace-qualified `require('pkg/a')`. -/
theorem main_alias_verbatim_cex :
    ¬ List.IsInfix (("require(\x27pkg/a\x27)").data)
        ((generateRun '/' ['\n'] (("/").data)
            ⟨fun _ => ⟨false, [], []⟩, fun _ => [], fun _ => [], fun _ => []⟩
            ⟨("/b").data, [], [], [], none, none, some (("./a").data), ("pkg").data⟩ []).1
          ++ (generateRun '/' ['\n'] (("/").data)
            ⟨fun _ => ⟨false, [], []⟩, fun _ => [], fun _ => [], fun _ => []⟩
            ⟨("/b").data, [], [], [], none, none, some (("./a").data), ("pkg").data⟩ []).2.2).flatten
    ∧ List.IsInfix (("require(\x27./a\x27)").data)
        ((generateRun '/' ['\n'] (("/").data)
            ⟨fun _ => ⟨false, [], []⟩, fun _ => [], fun _ => [], fun _ => []⟩
            ⟨("/b").data, [], [], [], none, none, some (("./a").data), ("pkg").data⟩ []).1
          ++ (generateRun '/' ['\n'] (("/").data)
            ⟨fun _ => ⟨false, [], []⟩, fun _ => [], fun _ => [], fun _ => []⟩
            ⟨("/b").data, [], [], [], none, none, some (("./a").data), ("pkg").data⟩ []).2.2).flatten := by
  refine ⟨by decide, by decide⟩

/-- C4 (amended): when a main module path is configured, the output ends
with the four alias-block writes, whose concatenation is the block
`declare module '<name>' { import main = require('<main>'); export = main; }`
with the configured main path interpolated verbatim (not namespace-
qualified). -/
theorem main_alias_verbatim (sep : Char) (host cwd : Text) (comp : Compiler)
    (opts : GenOptions) (sfs : List SourceFile) (m : Text) (hm : opts.main = some m) :
    (generateRun sep host cwd comp opts sfs).2.2
      = mainAliasWrites opts.name m (eolOf opts host) (indentOf opts)
    ∧ (mainAliasWrites opts.name m (eolOf opts host) (indentOf opts)).flatten
      = ("declare module \x27").data ++ opts.name ++ ("\x27 \x7b").data
          ++ eolOf opts host ++ indentOf opts
          ++ ("import main = require(\x27").data ++ m ++ ("\x27);").data
          ++ eolOf opts host ++ indentOf opts
          ++ ("export = main;").data ++ eolOf opts host
          ++ ("\x7d").data ++ eolOf opts host := by
  constructor
  · rw [generateRun]
    simp only [hm]
  · rw [mainAliasWrites]
    simp [List.append_assoc]

/-- Witness for the alias-block theorem at namespace `pkg`, main `./a`. -/
theorem main_alias_verbatim_witness :
    (generateRun '/' ['\n'] (("/").data)
        ⟨fun _ => ⟨false, [], []⟩, fun _ => [], fun _ => [], fun _ => []⟩
        ⟨("/b").data, [], [], [], none, none, some (("./a").data), ("pkg").data⟩ []).2.2
      = mainAliasWrites ("pkg").data (("./a").data)
          (eolOf ⟨("/b").data, [], [], [], none, none, some (("./a").data), ("pkg").data⟩ ['\n'])
          (indentOf ⟨("/b").data, [], [], [], none, none, some (("./a").data), ("pkg").data⟩)
    ∧ (mainAliasWrites ("pkg").data (("./a").data)
          (eolOf ⟨("/b").data, [], [], [], none, none, some (("./a").data), ("pkg").data⟩ ['\n'])
          (indentOf ⟨("/b").data, [], [], [], none, none, some (("./a").data), ("pkg").data⟩)).flatten
      = ("declare module \x27").data ++ ("pkg").data ++ ("\x27 \x7b").data
          ++ eolOf ⟨("/b").data, [], [], [], none, none, some (("./a").data), ("pkg").data⟩ ['\n']
          ++ indentOf ⟨("/b").data, [], [], [], none, none, some (("./a").data), ("pkg").data⟩
          ++ ("import main = require(\x27").data ++ ("./a").data ++ ("\x27);").data
          ++ eolOf ⟨("/b").data, [], [], [], none, none, some (("./a").data), ("pkg").data⟩ ['\n']
          ++ indentOf ⟨("/b").data, [], [], [], none, none, some (("./a").data), ("pkg").data⟩
          ++ ("export = main;").data
          ++ eolOf ⟨("/b").data, [], [], [], none, none, some (("./a").data), ("pkg").data⟩ ['\n']
          ++ ("\x7d").data
          ++ eolOf ⟨("/b").data, [], [], [], none, none, some (("./a").data), ("pkg").data⟩ ['\n'] :=
  main_alias_verbatim '/' ['\n'] (("/").data) _ _ [] (("./a").data) rfl

/-- C9 counterexample: with the working directory `/base/sub` inside the
base directory `/base`, the input `x.ts` is used as `/base/sub/x.ts` — the
working-directory resolution — not as the base-directory resolution
`/base/x.ts` the claim requires. -/
theorem resolve_against_cwd_cex :
    getFilenames (("/base/sub").data) (("/base").data) [("x.ts").data]
        ≠ [pathResolve (("/base").data) (("x.ts").data)]
    ∧ getFilenames (("/base/sub").data) (("/base").data) [("x.ts").data]
        = [("/base/sub/x.ts").data] := by
  refine ⟨by decide, by decide⟩

/-- C9 (amended): each input path is first resolved against the process
working directory and used when the base directory is a string prefix of the
result; otherwise it is resolved against the base directory.  The claim's
base-relative resolution does hold for absolute input paths, and whenever
the working-directory resolution does not land under the base directory. -/
theorem getFilenames_resolution :
    (∀ (cwd base f : Text) (fs : List Text),
      getFilenames cwd base (f :: fs)
        = (if base.isPrefixOf (pathResolve cwd f) then pathResolve cwd f
            else pathResolve base f) :: getFilenames cwd base fs)
    ∧ (∀ (cwd base f : Text), f.head? = some '/' → pathResolve cwd f = pathResolve base f)
    ∧ (∀ (cwd base f : Text) (fs : List Text),
      ¬ base.isPrefixOf (pathResolve cwd f) = true →
      getFilenames cwd base (f :: fs) = pathResolve base f :: getFilenames cwd base fs) := by
  refine ⟨?_, ?_, ?_⟩
  · intro cwd base f fs
    simp [getFilenames]
  · intro cwd base f h
    simp [pathResolve, h]
  · intro cwd base f fs h
    have h2 : ¬ base <+: pathResolve cwd f := by simpa using h
    simp [getFilenames, h2]

/-- Witness for the input-path resolution theorem on concrete paths. -/
theorem getFilenames_resolution_witness :
    getFilenames (("/base/sub").data) (("/base").data) [("x.ts").data]
      = (if (("/base").data).isPrefixOf (pathResolve (("/base/sub").data) (("x.ts").data))
          then pathResolve (("/base/sub").data) (("x.ts").data)
          else pathResolve (("/base").data) (("x.ts").data)) :: getFilenames (("/base/sub").data) (("/base").data) []
    ∧ pathResolve (("/base/sub").data) (("/abs.ts").data)
        = pathResolve (("/base").data) (("/abs.ts").data)
    ∧ getFilenames (("/base/sub").data) (("/base").data) [("../../other/y.ts").data]
        = pathResolve (("/base").data) (("../../other/y.ts").data)
            :: getFilenames (("/base/sub").data) (("/base").data) [] :=
  ⟨getFilenames_resolution.1 _ _ _ _,
    getFilenames_resolution.2.1 _ _ _ (by decide),
    getFilenames_resolution.2.2 _ _ _ _ (by decide)⟩
